import Mathlib

/-
Verification of the hierarchical configuration store (`main.go`).

The store is a tree of nodes, each holding an arbitrary decoded JSON value
and a map from child names to child nodes, addressed by slash-delimited
paths, with four operations Create / Read / Update / Delete.

Modelling conventions:
* `Val` models the decoded JSON payload stored in a node's `Value`
  field (Go `interface{}`).  No operation ever inspects or computes with a
  stored value — values are only carried around — so JSON numbers are
  modelled by `Int` (exact float formatting is irrelevant here).
* Go's `map[string]*Node` distinguishes a nil map from an empty map:
  lookups and `delete` work on a nil map, but assignment into a nil map
  panics.  `Children` therefore has a dedicated `nil` constructor distinct
  from `mk Entries.nil`.
* The Go operations mutate the tree in place through the `*Node` returned
  by `FindNode`; the pure translation re-walks the same path and rebuilds
  the spine (`mutateAt`).  A Go runtime panic (assignment into a nil
  children map) is modelled by the operation returning `none`; a normal
  return of HTTP status `s` with resulting server state `cs` is
  `some (s, cs)`.
* The JSON wire format is modelled at tree granularity: an operation body
  is the `Node` tree it decodes to.  The `400` branch for an undecodable
  body is outside the model — every claim under study assumes a
  well-formed payload.
-/

set_option autoImplicit false

namespace ConfigApi

mutual

/-- Decoded JSON value held in a node's `Value` field (Go `interface{}`). -/
inductive Val where
  | null
  | bool (b : Bool)
  | num (n : Int)
  | str (s : String)
  | arr (elems : ValList)
  | obj (fields : ValObj)

/-- Decoded JSON array of values. -/
inductive ValList where
  | nil
  | cons (v : Val) (rest : ValList)

/-- Decoded JSON object: field name / value pairs. -/
inductive ValObj where
  | nil
  | cons (k : String) (v : Val) (rest : ValObj)

end

mutual

/-- Go `type Node struct { Value interface{}; Children map[string]*Node }`. -/
inductive Node : Type where
  | mk (value : Val) (children : Children)

/-- Go `map[string]*Node`, which is either nil or a (possibly empty) map. -/
inductive Children : Type where
  | nil
  | mk (entries : Entries)

/-- Bindings of a non-nil children map (keys are unique). -/
inductive Entries : Type where
  | nil
  | cons (name : String) (node : Node) (rest : Entries)

end

/-- Field accessor for `Node.Value`. -/
def Node.value : Node → Val
  | .mk v _ => v

/-- Field accessor for `Node.Children`. -/
def Node.children : Node → Children
  | .mk _ c => c

/-- Go `type ConfigServer struct { Root *Node }`; a nil root is `none`. -/
structure ConfigServer where
  Root : Option Node

/-- HTTP status `http.StatusOK`. -/
def StatusOK : Nat := 200

/-- HTTP status `http.StatusNotFound`. -/
def StatusNotFound : Nat := 404

/-- HTTP status `http.StatusConflict`. -/
def StatusConflict : Nat := 409

/-- Go `strings.Split(s, "/")` on the underlying character list:
splits at every `'/'`; the empty input yields one empty field. -/
def splitChars : List Char → List (List Char)
  | [] => [[]]
  | c :: rest =>
    if c = '/' then [] :: splitChars rest
    else
      match splitChars rest with
      | s :: ss => (c :: s) :: ss
      | [] => [[c]]

/-- Go `strings.Split(config, "/")`. -/
def splitSlash (s : String) : List String :=
  (splitChars s.data).map (fun l => String.mk l)

/-- Go `path.Split` on the underlying character list: split around the
final `'/'`, the directory part keeping that `'/'`; with no `'/'` the
directory part is empty. -/
def splitLast : List Char → List Char × List Char
  | [] => ([], [])
  | c :: rest =>
    if rest.contains '/' then
      ((c :: (splitLast rest).1), (splitLast rest).2)
    else if c = '/' then ([c], rest)
    else ([], c :: rest)

/-- Go `path.Split(config)`, returning `(dir, file)`. -/
def goPathSplit (p : String) : String × String :=
  (String.mk (splitLast p.data).1, String.mk (splitLast p.data).2)

/-- Go map read `m[name]` on the entry list of a non-nil map. -/
def Entries.lookup : Entries → String → Option Node
  | .nil, _ => none
  | .cons n v rest, k => if n = k then some v else Entries.lookup rest k

/-- Go map read `node.Children[name]`: a read from a nil map yields the
zero value (a nil `*Node`). -/
def Children.lookup : Children → String → Option Node
  | .nil, _ => none
  | .mk es, k => es.lookup k

/-- Go `delete(m, name)` on the entry list of a non-nil map. -/
def Entries.erase : Entries → String → Entries
  | .nil, _ => .nil
  | .cons n v rest, k => if n = k then Entries.erase rest k else .cons n v (Entries.erase rest k)

/-- Go map write `m[name] = node` on the entry list of a non-nil map:
replace the binding if the key is present, otherwise add it. -/
def Entries.set : Entries → String → Node → Entries
  | .nil, k, v => .cons k v .nil
  | .cons n x rest, k, v => if n = k then .cons n v rest else .cons n x (Entries.set rest k v)

/-- Rebuilding step for in-place child replacement: write an updated child
back under its key.  Only reached after a successful lookup, so the nil-map
branch is never taken by the operations below. -/
def Children.set : Children → String → Node → Children
  | .nil, _, _ => .nil
  | .mk es, k, v => .mk (es.set k v)

/-- Loop body of Go `FindNode`: walk the name list, skipping empty names
(`len(name) > 0` is the tolerance for extra separators), descending via
`node.Children[name]`, failing as soon as a lookup yields nil. -/
def findFrom : Node → List String → Option Node
  | node, [] => some node
  | node, name :: rest =>
    if 0 < name.length then
      (node.children.lookup name).bind (fun child => findFrom child rest)
    else findFrom node rest

/-- Go `func (cs *ConfigServer) FindNode(config string) (*Node, error)`:
split the path on `/` and walk from the root; a nil root fails
immediately.  The error value only carries a diagnostic message, so the
outcome is modelled as `Option Node`. -/
def ConfigServer.FindNode (cs : ConfigServer) (config : String) : Option Node :=
  match cs.Root with
  | none => none
  | some node => findFrom node (splitSlash config)

/-- Pure counterpart of Go's mutation through the `*Node` pointer that
`FindNode` returned: re-walk the same segment list (skipping empty names
exactly as `FindNode` does), apply `f` to the node reached, and rebuild
the spine.  `f` returning `none` models a Go runtime panic. -/
def mutateAt : Node → List String → (Node → Option Node) → Option Node
  | node, [], f => f node
  | node, name :: rest, f =>
    if 0 < name.length then
      (node.children.lookup name).bind (fun child =>
        (mutateAt child rest f).map (fun child' =>
          Node.mk node.value (node.children.set name child')))
    else mutateAt node rest f

/-- Go statement `parent.Children[name] = node` in `Create`: an assignment
into a nil children map panics (`none`). -/
def attachChild (parent : Node) (name : String) (node : Node) : Option Node :=
  match parent.children with
  | Children.nil => none
  | Children.mk es => some (Node.mk parent.value (Children.mk (es.set name node)))

/-- Go statements `delete(parent.Children, name); parent.Children[name] = node`
in `Update`: the delete is a no-op on a nil map, but the following
assignment into a nil map panics (`none`). -/
def replaceChild (parent : Node) (name : String) (node : Node) : Option Node :=
  match parent.children with
  | Children.nil => none
  | Children.mk es => some (Node.mk parent.value (Children.mk ((es.erase name).set name node)))

/-- Go statement `delete(parent.Children, name)` in `Delete`: a delete on
a nil map is a no-op, so this never panics. -/
def detachChild (parent : Node) (name : String) : Option Node :=
  match parent.children with
  | Children.nil => some parent
  | Children.mk es => some (Node.mk parent.value (Children.mk (es.erase name)))

/-- Go `func (cs *ConfigServer) Create(w, r)` with the request body already
decoded into `node` (the URI path with its leading `/` stripped is
`config`).  Empty path: a present root is a conflict, else the candidate
becomes the root.  Otherwise `path.Split` the address, resolve the parent
(`404` on failure), report `409` if the leaf key is already bound, else
attach the candidate under the leaf key. -/
def Create (cs : ConfigServer) (config : String) (node : Node) : Option (Nat × ConfigServer) :=
  if config = "" then
    match cs.Root with
    | some _ => some (StatusConflict, cs)
    | none => some (StatusOK, { Root := some node })
  else
    match cs.FindNode (goPathSplit config).1 with
    | none => some (StatusNotFound, cs)
    | some parent =>
      match parent.children.lookup (goPathSplit config).2 with
      | some _ => some (StatusConflict, cs)
      | none =>
        match cs.Root with
        | none => none
        | some root =>
          match mutateAt root (splitSlash (goPathSplit config).1)
              (fun p => attachChild p (goPathSplit config).2 node) with
          | none => none
          | some root' => some (StatusOK, { Root := some root' })

/-- Go `func (cs *ConfigServer) Read(w, r)`: resolve the address; `404`
with no body on failure, else the JSON-encoded subtree with status `200`.
The body is modelled as the `Node` tree that is encoded. -/
def Read (cs : ConfigServer) (config : String) : Option Node × Nat :=
  match cs.FindNode config with
  | none => (none, StatusNotFound)
  | some node => (some node, StatusOK)

/-- Go `func (cs *ConfigServer) Update(w, r)` with the request body already
decoded into `node`.  Empty path: an absent root is `404`, else the
candidate replaces the root wholesale.  Otherwise resolve the parent
(`404` on failure), report `404` if the leaf key is unbound, else delete
the old binding and install the candidate under the leaf key. -/
def Update (cs : ConfigServer) (config : String) (node : Node) : Option (Nat × ConfigServer) :=
  if config = "" then
    match cs.Root with
    | none => some (StatusNotFound, cs)
    | some _ => some (StatusOK, { Root := some node })
  else
    match cs.FindNode (goPathSplit config).1 with
    | none => some (StatusNotFound, cs)
    | some parent =>
      match parent.children.lookup (goPathSplit config).2 with
      | none => some (StatusNotFound, cs)
      | some _ =>
        match cs.Root with
        | none => none
        | some root =>
          match mutateAt root (splitSlash (goPathSplit config).1)
              (fun p => replaceChild p (goPathSplit config).2 node) with
          | none => none
          | some root' => some (StatusOK, { Root := some root' })

/-- Go `func (cs *ConfigServer) Delete(w, r)`: empty path clears the root
unconditionally with `200`.  Otherwise resolve the parent (`404` on
failure), report `404` if the leaf key is unbound, else delete the
binding. -/
def Delete (cs : ConfigServer) (config : String) : Option (Nat × ConfigServer) :=
  if config = "" then
    some (StatusOK, { Root := none })
  else
    match cs.FindNode (goPathSplit config).1 with
    | none => some (StatusNotFound, cs)
    | some parent =>
      match parent.children.lookup (goPathSplit config).2 with
      | none => some (StatusNotFound, cs)
      | some _ =>
        match cs.Root with
        | none => none
        | some root =>
          match mutateAt root (splitSlash (goPathSplit config).1)
              (fun p => detachChild p (goPathSplit config).2) with
          | none => none
          | some root' => some (StatusOK, { Root := some root' })

/-- Canonical segment list of a path: the split fields with the empty ones
(the ones `FindNode` skips) filtered out. -/
def canonSegs (p : String) : List String :=
  (splitSlash p).filter (fun s => 0 < s.length)

/-- Canonical segment list on the underlying character lists. -/
def canonCh (l : List Char) : List (List Char) :=
  (splitChars l).filter (fun s => 0 < s.length)

/-- Joining of two split results across a concatenation boundary: the last
field of the first part fuses with the first field of the second part. -/
def glue : List (List Char) → List (List Char) → List (List Char)
  | [], yss => yss
  | x :: xs, yss =>
    match xs with
    | _ :: _ => x :: glue xs yss
    | [] =>
      match yss with
      | [] => [x]
      | y :: ys => (x ++ y) :: ys

theorem splitChars_ne_nil (l : List Char) : splitChars l ≠ [] := by
  cases l with
  | nil => simp [splitChars]
  | cons c rest =>
    simp only [splitChars]
    split
    · simp
    · split <;> simp

theorem splitChars_append (xs ys : List Char) :
    splitChars (xs ++ ys) = glue (splitChars xs) (splitChars ys) := by
  induction xs with
  | nil =>
    rcases hy : splitChars ys with _ | ⟨u, us⟩
    · exact absurd hy (splitChars_ne_nil ys)
    · simp [splitChars, glue, hy]
  | cons c xs ih =>
    rcases hx : splitChars xs with _ | ⟨s, ss⟩
    · exact absurd hx (splitChars_ne_nil xs)
    · by_cases hc : c = '/'
      · subst hc
        simp [splitChars, ih, hx, glue]
      · cases ss with
        | nil =>
          rcases hy : splitChars ys with _ | ⟨u, us⟩
          · exact absurd hy (splitChars_ne_nil ys)
          · simp [splitChars, hc, ih, hx, hy, glue]
        | cons s2 ss2 =>
          simp [splitChars, hc, ih, hx, glue]

theorem splitChars_no_slash (l : List Char) (h : '/' ∉ l) : splitChars l = [l] := by
  induction l with
  | nil => rfl
  | cons c rest ih =>
    have hc : c ≠ '/' := fun hc => h (hc ▸ List.mem_cons_self c rest)
    have hr : '/' ∉ rest := fun hr => h (List.mem_cons_of_mem c hr)
    simp [splitChars, hc, ih hr]

theorem glue_ne_nil (S T : List (List Char)) (h : T ≠ []) : glue S T ≠ [] := by
  cases S with
  | nil => simpa [glue] using h
  | cons x xs =>
    cases xs with
    | nil =>
      cases T with
      | nil => exact absurd rfl h
      | cons y ys => simp [glue]
    | cons x2 xs2 => simp [glue]

theorem glue_getLast? (S : List (List Char)) (y : List Char) (ys : List (List Char))
    (h : ys ≠ []) : (glue S (y :: ys)).getLast? = ys.getLast? := by
  induction S with
  | nil =>
    cases ys with
    | nil => exact absurd rfl h
    | cons z zs => simp [glue, List.getLast?_cons_cons]
  | cons x xs ih =>
    cases xs with
    | nil =>
      cases ys with
      | nil => exact absurd rfl h
      | cons z zs => simp [glue, List.getLast?_cons_cons]
    | cons x2 xs2 =>
      rcases hg : glue (x2 :: xs2) (y :: ys) with _ | ⟨w, ws⟩
      · exact absurd hg (glue_ne_nil _ _ (List.cons_ne_nil y ys))
      · rw [show glue (x :: x2 :: xs2) (y :: ys) = x :: glue (x2 :: xs2) (y :: ys) from by
          simp [glue]]
        rw [hg, List.getLast?_cons_cons, ← hg, ih]

theorem splitChars_getLast_nil (l : List Char) (h : l = [] ∨ l.getLast? = some '/') :
    (splitChars l).getLast? = some [] := by
  rcases h with h | h
  · subst h; rfl
  · obtain ⟨l', rfl⟩ := List.getLast?_eq_some_iff.mp h
    rw [splitChars_append]
    rw [show splitChars ['/'] = [[], []] from rfl]
    rw [glue_getLast? _ _ _ (List.cons_ne_nil [] [])]
    rfl

theorem splitChars_head_nil (l : List Char) (h : l = [] ∨ l.head? = some '/') :
    (splitChars l).head? = some [] := by
  rcases h with h | h
  · subst h; rfl
  · cases l with
    | nil => simp at h
    | cons c rest =>
      simp only [List.head?_cons, Option.some.injEq] at h
      simp [splitChars, h]

theorem filter_glue (S T : List (List Char)) (hT : T ≠ [])
    (h : S.getLast? = some [] ∨ T.head? = some []) :
    (glue S T).filter (fun s => 0 < s.length) =
      S.filter (fun s => 0 < s.length) ++ T.filter (fun s => 0 < s.length) := by
  induction S with
  | nil => simp [glue]
  | cons x xs ih =>
    cases xs with
    | nil =>
      cases T with
      | nil => exact absurd rfl hT
      | cons y ys =>
        rcases h with h | h
        · simp only [List.getLast?_singleton, Option.some.injEq] at h
          subst h
          simp [glue]
        · simp only [List.head?_cons, Option.some.injEq] at h
          subst h
          by_cases hx : 0 < x.length <;> simp [glue, hx]
    | cons x2 xs2 =>
      have h2 : (x2 :: xs2).getLast? = some [] ∨ T.head? = some [] := by
        rcases h with h | h
        · exact Or.inl (List.getLast?_cons_cons .. ▸ h)
        · exact Or.inr h
      rw [show glue (x :: x2 :: xs2) T = x :: glue (x2 :: xs2) T from by simp [glue]]
      by_cases hx : 0 < x.length <;> simp [hx, ih h2]

theorem canonCh_append_left (d m : List Char) (h : d = [] ∨ d.getLast? = some '/') :
    canonCh (d ++ m) = canonCh d ++ canonCh m := by
  unfold canonCh
  rw [splitChars_append]
  exact filter_glue _ _ (splitChars_ne_nil m) (Or.inl (splitChars_getLast_nil d h))

theorem canonCh_append_right (l m : List Char) (h : m = [] ∨ m.head? = some '/') :
    canonCh (l ++ m) = canonCh l ++ canonCh m := by
  unfold canonCh
  rw [splitChars_append]
  exact filter_glue _ _ (splitChars_ne_nil m) (Or.inr (splitChars_head_nil m h))

theorem canonCh_cons_slash (l : List Char) : canonCh ('/' :: l) = canonCh l := by
  unfold canonCh
  simp [splitChars]

theorem canonCh_no_slash (f : List Char) (h : '/' ∉ f) :
    canonCh f = if f = [] then [] else [f] := by
  unfold canonCh
  rw [splitChars_no_slash f h]
  cases f with
  | nil => rfl
  | cons c rest => simp

theorem splitLast_append (l : List Char) : (splitLast l).1 ++ (splitLast l).2 = l := by
  induction l with
  | nil => rfl
  | cons c rest ih =>
    by_cases h : '/' ∈ rest
    · simp [splitLast, h, ih]
    · by_cases hc : c = '/' <;> simp [splitLast, h, hc]

theorem splitLast_snd_no_slash (l : List Char) : '/' ∉ (splitLast l).2 := by
  induction l with
  | nil => simp [splitLast]
  | cons c rest ih =>
    by_cases h : '/' ∈ rest
    · simpa [splitLast, h] using ih
    · by_cases hc : c = '/'
      · simp [splitLast, h, hc]
      · simp [splitLast, h, hc, List.mem_cons]
        exact fun he => hc he.symm

theorem splitLast_fst_of_not_mem (l : List Char) (h : '/' ∉ l) : (splitLast l).1 = [] := by
  cases l with
  | nil => rfl
  | cons c rest =>
    have hc : c ≠ '/' := fun hc => h (hc ▸ List.mem_cons_self c rest)
    have hr : '/' ∉ rest := fun hm => h (List.mem_cons_of_mem c hm)
    simp [splitLast, hr, hc]

theorem splitLast_fst_of_mem (l : List Char) (h : '/' ∈ l) :
    (splitLast l).1.getLast? = some '/' := by
  induction l with
  | nil => exact absurd h (List.not_mem_nil '/')
  | cons c rest ih =>
    by_cases hr : '/' ∈ rest
    · obtain ⟨l2, hl2⟩ := List.getLast?_eq_some_iff.mp (ih hr)
      rw [show (splitLast (c :: rest)).1 = c :: (splitLast rest).1 from by
        simp [splitLast, hr]]
      rw [hl2, show c :: (l2 ++ ['/']) = (c :: l2) ++ ['/'] from rfl]
      exact List.getLast?_concat _
    · have hc : c = '/' := by
        rcases List.mem_cons.mp h with h | h
        · exact h.symm
        · exact absurd h hr
      simp [splitLast, hr, hc]

theorem splitLast_fst_shape (l : List Char) :
    (splitLast l).1 = [] ∨ (splitLast l).1.getLast? = some '/' := by
  by_cases h : '/' ∈ l
  · exact Or.inr (splitLast_fst_of_mem l h)
  · exact Or.inl (splitLast_fst_of_not_mem l h)

theorem splitLast_snd_eq_nil_iff (l : List Char) :
    (splitLast l).2 = [] ↔ (l = [] ∨ l.getLast? = some '/') := by
  induction l with
  | nil => simp [splitLast]
  | cons c rest ih =>
    by_cases hr : '/' ∈ rest
    · cases rest with
      | nil => exact absurd hr (List.not_mem_nil '/')
      | cons r rs =>
        rw [show (splitLast (c :: r :: rs)).2 = (splitLast (r :: rs)).2 from by
          simp [splitLast, hr]]
        rw [ih]
        simp [List.getLast?_cons_cons, hr]
    · by_cases hc : c = '/'
      · subst hc
        rw [show (splitLast ('/' :: rest)).2 = rest from by simp [splitLast, hr]]
        constructor
        · intro he
          subst he
          simp
        · intro hor
          rcases hor with hor | hor
          · exact absurd hor (List.cons_ne_nil _ _)
          · cases rest with
            | nil => rfl
            | cons r rs =>
              rw [List.getLast?_cons_cons] at hor
              obtain ⟨l2, hl2⟩ := List.getLast?_eq_some_iff.mp hor
              exact absurd (hl2 ▸ List.mem_append_right l2 (List.mem_singleton.mpr rfl)) hr
      · rw [show (splitLast (c :: rest)).2 = c :: rest from by simp [splitLast, hr, hc]]
        constructor
        · intro he
          exact absurd he (List.cons_ne_nil _ _)
        · intro hor
          rcases hor with hor | hor
          · exact absurd hor (List.cons_ne_nil _ _)
          · obtain ⟨l2, hl2⟩ := List.getLast?_eq_some_iff.mp hor
            have : '/' ∈ c :: rest := hl2 ▸ List.mem_append_right l2 (List.mem_singleton.mpr rfl)
            rcases List.mem_cons.mp this with h2 | h2
            · exact absurd h2.symm hc
            · exact absurd h2 hr

theorem canonCh_decomp (l : List Char) :
    canonCh l = canonCh (splitLast l).1 ++ canonCh (splitLast l).2 := by
  conv_lhs => rw [← splitLast_append l]
  exact canonCh_append_left _ _ (splitLast_fst_shape l)

theorem canonSegs_eq_map (p : String) :
    canonSegs p = (canonCh p.data).map (fun l => String.mk l) := by
  unfold canonSegs canonCh splitSlash
  induction splitChars p.data with
  | nil => rfl
  | cons s ss ih =>
    by_cases hs : 0 < s.length
    · rw [List.map_cons, List.filter_cons,
        if_pos (by exact decide_eq_true (show 0 < (String.mk s).length from hs)),
        List.filter_cons, if_pos (by exact decide_eq_true hs), List.map_cons, ih]
    · rw [List.map_cons, List.filter_cons,
        if_neg (by simpa using hs), List.filter_cons, if_neg (by simpa using hs), ih]

theorem canonSegs_decomp (p : String) (h : (splitLast p.data).2 ≠ []) :
    canonSegs p = canonSegs (goPathSplit p).1 ++ [(goPathSplit p).2] := by
  rw [canonSegs_eq_map, canonSegs_eq_map]
  rw [show ((goPathSplit p).1).data = (splitLast p.data).1 from rfl]
  rw [canonCh_decomp p.data]
  rw [canonCh_no_slash _ (splitLast_snd_no_slash p.data), if_neg h]
  simp [goPathSplit]

theorem leaf_ne_nil (p : String) (hne : p ≠ "") (htr : p.data.getLast? ≠ some '/') :
    (splitLast p.data).2 ≠ [] := by
  intro h0
  rcases (splitLast_snd_eq_nil_iff p.data).mp h0 with h | h
  · exact hne (String.ext (show p.data = "".data from h))
  · exact htr h

theorem findFrom_filter (n : Node) (segs : List String) :
    findFrom n (segs.filter (fun s => 0 < s.length)) = findFrom n segs := by
  induction segs generalizing n with
  | nil => rfl
  | cons s rest ih =>
    by_cases hs : 0 < s.length
    · rw [List.filter_cons, if_pos (by simpa using hs)]
      simp only [findFrom, if_pos hs]
      cases hl : n.children.lookup s with
      | none => rfl
      | some c => exact ih c
    · rw [List.filter_cons, if_neg (by simpa using hs)]
      simp only [findFrom, if_neg hs]
      exact ih n

theorem findFrom_append (n : Node) (xs ys : List String) :
    findFrom n (xs ++ ys) = (findFrom n xs).bind (fun m => findFrom m ys) := by
  induction xs generalizing n with
  | nil => rfl
  | cons s rest ih =>
    by_cases hs : 0 < s.length
    · simp only [List.cons_append, findFrom, if_pos hs]
      cases hl : n.children.lookup s with
      | none => rfl
      | some c => exact ih c
    · simp only [List.cons_append, findFrom, if_neg hs]
      exact ih n

theorem findFrom_single (p : Node) (name : String) (h : 0 < name.length) :
    findFrom p [name] = p.children.lookup name := by
  simp only [findFrom, if_pos h]
  cases hl : p.children.lookup name <;> rfl

theorem mutateAt_filter (n : Node) (segs : List String) (f : Node → Option Node) :
    mutateAt n (segs.filter (fun s => 0 < s.length)) f = mutateAt n segs f := by
  induction segs generalizing n with
  | nil => rfl
  | cons s rest ih =>
    by_cases hs : 0 < s.length
    · rw [List.filter_cons, if_pos (by simpa using hs)]
      simp only [mutateAt, if_pos hs]
      cases hl : n.children.lookup s with
      | none => rfl
      | some c => simp only [Option.some_bind, ih c]
    · rw [List.filter_cons, if_neg (by simpa using hs)]
      simp only [mutateAt, if_neg hs]
      exact ih n

theorem entriesSet_lookup (es : Entries) (k : String) (v : Node) :
    (es.set k v).lookup k = some v := by
  match es with
  | .nil => simp [Entries.set, Entries.lookup]
  | .cons n x rest =>
    by_cases h : n = k
    · simp [Entries.set, h, Entries.lookup]
    · simp only [Entries.set, if_neg h, Entries.lookup]
      exact entriesSet_lookup rest k v

theorem childrenSet_lookup (ch : Children) (k : String) (c v : Node)
    (h : ch.lookup k = some c) : (ch.set k v).lookup k = some v := by
  cases ch with
  | nil => simp [Children.lookup] at h
  | mk es => simp [Children.set, Children.lookup, entriesSet_lookup]

theorem mutateAt_spec (segs : List String) (n n' p : Node) (f : Node → Option Node)
    (hm : mutateAt n segs f = some n') (hf : findFrom n segs = some p) :
    ∃ p', f p = some p' ∧ findFrom n' segs = some p' := by
  induction segs generalizing n n' with
  | nil =>
    simp only [findFrom] at hf
    obtain rfl := Option.some.inj hf
    exact ⟨n', hm, rfl⟩
  | cons s rest ih =>
    by_cases hs : 0 < s.length
    · simp only [mutateAt, if_pos hs] at hm
      simp only [findFrom, if_pos hs] at hf
      cases hl : n.children.lookup s with
      | none =>
        rw [hl] at hm
        simp at hm
      | some c =>
        rw [hl] at hm hf
        simp only [Option.some_bind] at hm hf
        rw [Option.map_eq_some'] at hm
        obtain ⟨c', hm2, hn'⟩ := hm
        obtain ⟨p', hfp, hff⟩ := ih c c' hm2 hf
        refine ⟨p', hfp, ?_⟩
        rw [← hn']
        simp only [findFrom, if_pos hs]
        rw [show (Node.mk n.value (n.children.set s c')).children = n.children.set s c'
          from rfl]
        rw [childrenSet_lookup n.children s c c' hl]
        simpa using hff
    · simp only [mutateAt, if_neg hs] at hm
      simp only [findFrom, if_neg hs] at hf
      obtain ⟨p', h1, h2⟩ := ih n n' hm hf
      refine ⟨p', h1, ?_⟩
      simp only [findFrom, if_neg hs]
      exact h2

theorem FindNode_canon (cs : ConfigServer) (p q : String)
    (h : canonSegs p = canonSegs q) : cs.FindNode p = cs.FindNode q := by
  unfold ConfigServer.FindNode
  cases cs.Root with
  | none => rfl
  | some root =>
    show findFrom root (splitSlash p) = findFrom root (splitSlash q)
    rw [← findFrom_filter root (splitSlash p), ← findFrom_filter root (splitSlash q)]
    exact congrArg (findFrom root) h

theorem mutateAt_canon (n : Node) (p q : String) (f : Node → Option Node)
    (h : canonSegs p = canonSegs q) :
    mutateAt n (splitSlash p) f = mutateAt n (splitSlash q) f := by
  rw [← mutateAt_filter n (splitSlash p) f, ← mutateAt_filter n (splitSlash q) f]
  exact congrArg (fun segs => mutateAt n segs f) h

theorem leaf_length_pos (p : String) (h : (splitLast p.data).2 ≠ []) :
    0 < ((goPathSplit p).2).length := by
  rw [show ((goPathSplit p).2).length = ((splitLast p.data).2).length from rfl]
  exact List.length_pos.mpr h

theorem FindNode_decomp (cs : ConfigServer) (config : String)
    (h : (splitLast config.data).2 ≠ []) :
    cs.FindNode config = (cs.FindNode (goPathSplit config).1).bind
      (fun parent => parent.children.lookup (goPathSplit config).2) := by
  unfold ConfigServer.FindNode
  cases cs.Root with
  | none => rfl
  | some root =>
    show findFrom root (splitSlash config)
      = (findFrom root (splitSlash (goPathSplit config).1)).bind
        (fun parent => parent.children.lookup (goPathSplit config).2)
    rw [← findFrom_filter root (splitSlash config),
        ← findFrom_filter root (splitSlash (goPathSplit config).1)]
    rw [show (splitSlash config).filter (fun s => 0 < s.length) = canonSegs config from rfl,
        show (splitSlash (goPathSplit config).1).filter (fun s => 0 < s.length)
          = canonSegs (goPathSplit config).1 from rfl,
        canonSegs_decomp config h, findFrom_append]
    cases findFrom root (canonSegs (goPathSplit config).1) with
    | none => rfl
    | some parent =>
      simp only [Option.some_bind]
      exact findFrom_single parent _ (leaf_length_pos config h)

/-- Leaf node with an empty but non-nil children map (decoded from a
payload whose children field is present and empty). -/
def leafNode (v : Val) : Node := Node.mk v (Children.mk Entries.nil)

/-- Node decoded from a payload whose children field is absent or null:
its children map is Go's nil map. -/
def bareNode (v : Val) : Node := Node.mk v Children.nil

/-- Fixture: a root node whose only child is named `a`. -/
def rootA : Node :=
  Node.mk Val.null (Children.mk (Entries.cons "a" (leafNode (Val.num 1)) Entries.nil))

/-- Fixture server holding `rootA`. -/
def csA : ConfigServer := { Root := some rootA }

/-- C5: Create is not total over reachable states.  The first conjunct
reaches, from the empty store, a root whose children mapping is absent
(nil), exactly as deserializing a payload without a children field
produces; the second conjunct shows that Create of a new child under that
root reaches Go's `parent.Children[name] = node` with a nil map, which
panics — the embedding returns no status at all (`none`). -/
theorem Create_nil_children_crash :
    Create { Root := none } "" (bareNode Val.null)
        = some (StatusOK, { Root := some (bareNode Val.null) }) ∧
      Create { Root := some (bareNode Val.null) } "a" (leafNode Val.null) = none :=
  ⟨rfl, rfl⟩

/-- C6: Delete of the empty (root) address returns OK and leaves the root
absent, for every tree state — deleting a non-existent root is not an
error, and repeating the delete returns OK again. -/
theorem Delete_root_idempotent (cs : ConfigServer) :
    Delete cs "" = some (StatusOK, { Root := none }) := rfl

/-- C9: when the root is absent, resolution fails for every path string
(including the empty one); when the root is present, every path whose
canonical segment list is empty resolves to the root node itself. -/
theorem FindNode_root_semantics :
    (∀ config : String, ConfigServer.FindNode { Root := none } config = none) ∧
      (∀ (root : Node) (config : String), canonSegs config = [] →
        ConfigServer.FindNode { Root := some root } config = some root) := by
  constructor
  · intro config
    rfl
  · intro root config h
    show findFrom root (splitSlash config) = some root
    rw [← findFrom_filter root (splitSlash config),
        show (splitSlash config).filter (fun s => 0 < s.length) = canonSegs config from rfl, h]
    rfl

/-- C9 witness: the theorem applied to the empty store at `a/b` and to a
store with a root at the all-separators path `//`. -/
theorem FindNode_root_semantics_witness :
    ConfigServer.FindNode { Root := none } "a/b" = none ∧
      ConfigServer.FindNode { Root := some rootA } "//" = some rootA :=
  ⟨FindNode_root_semantics.1 "a/b", FindNode_root_semantics.2 rootA "//" rfl⟩

/-- C1 (amended): restricted to addresses that do not end in a separator,
Create returns Conflict exactly when a node already resolves at that
address; and unconditionally, every Conflict returns the server state
unchanged.  (For an address with a trailing separator the leaf name
computed by `path.Split` is empty, so Create can return OK even though the
address resolves — see the counterexample.) -/
theorem Create_conflict_iff (cs : ConfigServer) (config : String) (node : Node) :
    (config.data.getLast? ≠ some '/' →
      ((∃ cs', Create cs config node = some (StatusConflict, cs'))
        ↔ ∃ n, cs.FindNode config = some n))
    ∧ ∀ cs', Create cs config node = some (StatusConflict, cs') → cs' = cs := by
  constructor
  · intro htr
    by_cases hne : config = ""
    · subst hne
      cases hR : cs.Root with
      | none =>
        rw [show Create cs "" node = some (StatusOK, { Root := some node }) from by
          unfold Create
          rw [hR]
          rfl]
        rw [show cs.FindNode "" = none from by
          unfold ConfigServer.FindNode
          rw [hR]]
        constructor
        · rintro ⟨cs', hcs⟩
          simp [StatusOK, StatusConflict] at hcs
        · rintro ⟨n, hn⟩
          simp at hn
      | some r =>
        rw [show Create cs "" node = some (StatusConflict, cs) from by
          unfold Create
          rw [hR]
          rfl]
        rw [show cs.FindNode "" = some r from by
          unfold ConfigServer.FindNode
          rw [hR]
          rfl]
        exact ⟨fun _ => ⟨r, rfl⟩, fun _ => ⟨cs, rfl⟩⟩
    · have hlf := leaf_ne_nil config hne htr
      rw [FindNode_decomp cs config hlf]
      cases hF : cs.FindNode (goPathSplit config).1 with
      | none =>
        rw [show Create cs config node = some (StatusNotFound, cs) from by
          simp only [Create, if_neg hne, hF]]
        constructor
        · rintro ⟨cs', hcs⟩
          simp [StatusNotFound, StatusConflict] at hcs
        · rintro ⟨n, hn⟩
          simp at hn
      | some parent =>
        simp only [Option.some_bind]
        cases hL : parent.children.lookup (goPathSplit config).2 with
        | some x =>
          rw [show Create cs config node = some (StatusConflict, cs) from by
            simp only [Create, if_neg hne, hF, hL]]
          exact ⟨fun _ => ⟨x, rfl⟩, fun _ => ⟨cs, rfl⟩⟩
        | none =>
          constructor
          · rintro ⟨cs', hcs⟩
            cases hRoot : cs.Root with
            | none =>
              simp [Create, if_neg hne, hF, hL, hRoot] at hcs
            | some root =>
              cases hM : mutateAt root (splitSlash (goPathSplit config).1)
                  (fun p => attachChild p (goPathSplit config).2 node) with
              | none =>
                simp [Create, if_neg hne, hF, hL, hRoot, hM] at hcs
              | some root' =>
                simp [Create, if_neg hne, hF, hL, hRoot, hM, StatusOK, StatusConflict] at hcs
          · rintro ⟨n, hn⟩
            simp at hn
  · intro cs' h
    unfold Create at h
    split at h
    · split at h
      · simp only [StatusConflict, Option.some.injEq, Prod.mk.injEq] at h
        exact h.2.symm
      · simp [StatusOK, StatusConflict] at h
    · split at h
      · simp [StatusNotFound, StatusConflict] at h
      · split at h
        · simp only [StatusConflict, Option.some.injEq, Prod.mk.injEq] at h
          exact h.2.symm
        · split at h
          · simp at h
          · split at h
            · simp at h
            · simp [StatusOK, StatusConflict] at h

/-- C1 counterexample: in a store whose root has a child `a`, the address
`a/` resolves to that child — a node exists at the address — yet Create at
`a/` with a fresh payload returns OK (attaching the payload under the
empty leaf name), not Conflict. -/
theorem Create_conflict_iff_counterexample :
    ConfigServer.FindNode csA "a/" = some (leafNode (Val.num 1)) ∧
      Create csA "a/" (leafNode (Val.str "x"))
        = some (StatusOK, { Root := some (Node.mk Val.null (Children.mk (Entries.cons "a"
            (Node.mk (Val.num 1) (Children.mk (Entries.cons "" (leafNode (Val.str "x"))
              Entries.nil))) Entries.nil))) }) ∧
      StatusOK ≠ StatusConflict :=
  ⟨rfl, rfl, by decide⟩

/-- C1 witness: the amended theorem applied to the fixture store at the
canonical address `a`, where a node already exists. -/
theorem Create_conflict_iff_witness :
    ((∃ cs', Create csA "a" (leafNode Val.null) = some (StatusConflict, cs'))
      ↔ ∃ n, ConfigServer.FindNode csA "a" = some n) ∧
    ∀ cs', Create csA "a" (leafNode Val.null) = some (StatusConflict, cs') → cs' = csA :=
  ⟨(Create_conflict_iff csA "a" (leafNode Val.null)).1 (by decide),
    (Create_conflict_iff csA "a" (leafNode Val.null)).2⟩

/-- C2 (amended): for a non-empty address that does not end in a
separator, an Update that returns OK replaces the subtree at that address
wholesale — resolving the address afterwards yields exactly the tree the
payload deserialized to, so no pre-update descendant remains reachable at
the address unless it is part of the payload. -/
theorem Update_ok_replaces (cs cs' : ConfigServer) (config : String) (node : Node)
    (hne : config ≠ "") (htr : config.data.getLast? ≠ some '/')
    (h : Update cs config node = some (StatusOK, cs')) :
    cs'.FindNode config = some node := by
  have hlf := leaf_ne_nil config hne htr
  cases hF : cs.FindNode (goPathSplit config).1 with
  | none => simp [Update, if_neg hne, hF, StatusNotFound, StatusOK] at h
  | some parent =>
    cases hL : parent.children.lookup (goPathSplit config).2 with
    | none => simp [Update, if_neg hne, hF, hL, StatusNotFound, StatusOK] at h
    | some old =>
      cases hRoot : cs.Root with
      | none => simp [Update, if_neg hne, hF, hL, hRoot] at h
      | some root =>
        cases hM : mutateAt root (splitSlash (goPathSplit config).1)
            (fun p => replaceChild p (goPathSplit config).2 node) with
        | none => simp [Update, if_neg hne, hF, hL, hRoot, hM] at h
        | some root' =>
          simp only [Update, if_neg hne, hF, hL, hRoot, hM, Option.some.injEq,
            Prod.mk.injEq] at h
          obtain ⟨-, h2⟩ := h
          subst h2
          have hf : findFrom root (splitSlash (goPathSplit config).1) = some parent := by
            have h3 := hF
            unfold ConfigServer.FindNode at h3
            rw [hRoot] at h3
            exact h3
          obtain ⟨p', hfp, hff⟩ := mutateAt_spec _ root root' parent _ hM hf
          cases hch : parent.children with
          | nil =>
            rw [hch] at hL
            simp [Children.lookup] at hL
          | mk es =>
            simp only [replaceChild, hch] at hfp
            obtain rfl := Option.some.inj hfp
            rw [FindNode_decomp _ config hlf]
            rw [show ConfigServer.FindNode { Root := some root' } (goPathSplit config).1
                = findFrom root' (splitSlash (goPathSplit config).1) from rfl, hff]
            simp only [Option.some_bind]
            show (Children.mk ((es.erase (goPathSplit config).2).set (goPathSplit config).2
              node)).lookup (goPathSplit config).2 = some node
            simp only [Children.lookup]
            exact entriesSet_lookup _ _ _

/-- Fixture for the C2 counterexample: the node at `b` has a child bound
to the empty name and a second child `keep`. -/
def staleNode : Node := leafNode (Val.str "stale")

/-- Fixture: the pre-update node at address `b`. -/
def bNode : Node :=
  Node.mk Val.null (Children.mk (Entries.cons "" (leafNode (Val.str "old"))
    (Entries.cons "keep" staleNode Entries.nil)))

/-- Fixture server for the C2 counterexample. -/
def csB : ConfigServer :=
  { Root := some (Node.mk Val.null (Children.mk (Entries.cons "b" bNode Entries.nil))) }

/-- Fixture: the server state after the C2 counterexample update. -/
def csB' : ConfigServer :=
  { Root := some (Node.mk Val.null (Children.mk (Entries.cons "b"
      (Node.mk Val.null (Children.mk (Entries.cons "keep" staleNode
        (Entries.cons "" (leafNode (Val.str "new")) Entries.nil)))) Entries.nil))) }

/-- C2 counterexample: at the trailing-separator address `b/` (a non-empty
path addressing an existing node), Update with the childless payload
`leafNode "new"` returns OK, yet the pre-update descendant `staleNode`
is still reachable from the address afterwards — the replacement was not
wholesale at the resolved address. -/
theorem Update_ok_replaces_counterexample :
    Update csB "b/" (leafNode (Val.str "new")) = some (StatusOK, csB') ∧
      ConfigServer.FindNode csB' "b/keep" = some staleNode ∧
      (leafNode (Val.str "new")).children = Children.mk Entries.nil :=
  ⟨rfl, rfl, rfl⟩

/-- C2 witness: the amended theorem applied to an update of the child `a`
of the fixture store. -/
theorem Update_ok_replaces_witness :
    ConfigServer.FindNode { Root := some (Node.mk Val.null (Children.mk (Entries.cons "a"
        (leafNode (Val.str "v2")) Entries.nil))) } "a" = some (leafNode (Val.str "v2")) :=
  Update_ok_replaces csA _ "a" (leafNode (Val.str "v2")) (by decide) (by decide) rfl

/-- C3 (amended): for any address that does not end in a separator
(including the root address), a Create that returns OK followed
immediately by a Read of the same address returns status OK with a body
that is exactly the tree the Create payload deserialized to. -/
theorem Create_ok_read_roundtrip (cs cs' : ConfigServer) (config : String) (node : Node)
    (htr : config.data.getLast? ≠ some '/')
    (h : Create cs config node = some (StatusOK, cs')) :
    Read cs' config = (some node, StatusOK) := by
  by_cases hne : config = ""
  · subst hne
    cases hR : cs.Root with
    | some r => simp [Create, hR, StatusConflict, StatusOK] at h
    | none =>
      rw [show Create cs "" node = some (StatusOK, { Root := some node }) from by
        unfold Create
        rw [hR]
        rfl] at h
      simp only [Option.some.injEq, Prod.mk.injEq] at h
      obtain ⟨-, h2⟩ := h
      subst h2
      rfl
  · have hlf := leaf_ne_nil config hne htr
    cases hF : cs.FindNode (goPathSplit config).1 with
    | none => simp [Create, if_neg hne, hF, StatusNotFound, StatusOK] at h
    | some parent =>
      cases hL : parent.children.lookup (goPathSplit config).2 with
      | some x => simp [Create, if_neg hne, hF, hL, StatusConflict, StatusOK] at h
      | none =>
        cases hRoot : cs.Root with
        | none => simp [Create, if_neg hne, hF, hL, hRoot] at h
        | some root =>
          cases hM : mutateAt root (splitSlash (goPathSplit config).1)
              (fun p => attachChild p (goPathSplit config).2 node) with
          | none => simp [Create, if_neg hne, hF, hL, hRoot, hM] at h
          | some root' =>
            simp only [Create, if_neg hne, hF, hL, hRoot, hM, Option.some.injEq,
              Prod.mk.injEq] at h
            obtain ⟨-, h2⟩ := h
            subst h2
            have hf : findFrom root (splitSlash (goPathSplit config).1) = some parent := by
              have h3 := hF
              unfold ConfigServer.FindNode at h3
              rw [hRoot] at h3
              exact h3
            obtain ⟨p', hfp, hff⟩ := mutateAt_spec _ root root' parent _ hM hf
            cases hch : parent.children with
            | nil => simp [attachChild, hch] at hfp
            | mk es =>
              simp only [attachChild, hch] at hfp
              obtain rfl := Option.some.inj hfp
              have hres : ConfigServer.FindNode { Root := some root' } config = some node := by
                rw [FindNode_decomp _ config hlf]
                rw [show ConfigServer.FindNode { Root := some root' } (goPathSplit config).1
                    = findFrom root' (splitSlash (goPathSplit config).1) from rfl, hff]
                simp only [Option.some_bind]
                show (Children.mk (es.set (goPathSplit config).2 node)).lookup
                  (goPathSplit config).2 = some node
                simp only [Children.lookup]
                exact entriesSet_lookup _ _ _
              unfold Read
              rw [hres]

/-- Fixture: the node at `a` after the C3 counterexample create. -/
def aPost : Node :=
  Node.mk (Val.num 1) (Children.mk (Entries.cons "" (leafNode (Val.str "x")) Entries.nil))

/-- Fixture: the server state after the C3 counterexample create. -/
def csA' : ConfigServer :=
  { Root := some (Node.mk Val.null (Children.mk (Entries.cons "a" aPost Entries.nil))) }

/-- C3 counterexample: Create at the trailing-separator address `a/`
succeeds with OK (attaching the payload under the empty leaf name below
the node `a`), but the immediate Read of the same address resolves to the
node `a` itself, whose tree differs from the created payload. -/
theorem Create_ok_read_roundtrip_counterexample :
    Create csA "a/" (leafNode (Val.str "x")) = some (StatusOK, csA') ∧
      Read csA' "a/" = (some aPost, StatusOK) ∧
      aPost ≠ leafNode (Val.str "x") :=
  ⟨rfl, rfl, fun h => Val.noConfusion (congrArg Node.value h)⟩

/-- C3 witness: the amended theorem applied to a root create on the empty
store. -/
theorem Create_ok_read_roundtrip_witness :
    Read { Root := some (leafNode Val.null) } "" = (some (leafNode Val.null), StatusOK) :=
  Create_ok_read_roundtrip { Root := none } _ "" (leafNode Val.null) (by decide) rfl

/-- C7: Update never creates a node: whenever nothing exists at the
addressed location — the root is absent for the root address, or the
parent fails to resolve, or the parent's leaf entry is unbound — Update
returns NotFound with the server state unchanged, so no new entry appears
anywhere in the tree. -/
theorem Update_never_creates (cs : ConfigServer) (config : String) (node : Node)
    (h : (config = "" ∧ cs.Root = none) ∨
      (config ≠ "" ∧ (cs.FindNode (goPathSplit config).1 = none ∨
        ∃ parent, cs.FindNode (goPathSplit config).1 = some parent ∧
          parent.children.lookup (goPathSplit config).2 = none))) :
    Update cs config node = some (StatusNotFound, cs) := by
  rcases h with ⟨hne, hR⟩ | ⟨hne, h⟩
  · subst hne
    unfold Update
    rw [hR]
    rfl
  · rcases h with hF | ⟨parent, hF, hL⟩
    · simp only [Update, if_neg hne, hF]
    · simp only [Update, if_neg hne, hF, hL]

/-- C7 witness: the theorem applied to an update of `a` on the empty
store, whose parent (the root) is unresolvable. -/
theorem Update_never_creates_witness :
    Update { Root := none } "a" (leafNode Val.null)
      = some (StatusNotFound, { Root := none }) :=
  Update_never_creates { Root := none } "a" (leafNode Val.null)
    (Or.inr ⟨by decide, Or.inl rfl⟩)

/-- One insertion of a `/` character into a character list at a segment
boundary: at the start, at the end, or adjacent to an existing `/`. -/
def InsStep (l l' : List Char) : Prop :=
  ∃ a b, l = a ++ b ∧ l' = a ++ '/' :: b ∧
    (a = [] ∨ b = [] ∨ a.getLast? = some '/' ∨ b.head? = some '/')

theorem canonCh_insStep {l l' : List Char} (h : InsStep l l') : canonCh l' = canonCh l := by
  obtain ⟨a, b, rfl, rfl, hb⟩ := h
  rcases hb with ha | hb | ha | hb
  · subst ha
    simp only [List.nil_append]
    exact canonCh_cons_slash b
  · subst hb
    rw [List.append_nil, canonCh_append_right a ['/'] (Or.inr rfl)]
    rw [show canonCh ['/'] = [] from rfl, List.append_nil]
  · rw [canonCh_append_left a ('/' :: b) (Or.inr ha), canonCh_append_left a b (Or.inr ha),
      canonCh_cons_slash]
  · rw [canonCh_append_right a ('/' :: b) (Or.inr rfl), canonCh_append_right a b (Or.inr hb),
      canonCh_cons_slash]

theorem canonCh_insChain {x y : List Char} (h : Relation.ReflTransGen InsStep x y) :
    canonCh x = canonCh y := by
  induction h with
  | refl => rfl
  | tail _ hstep ih => rw [ih, ← canonCh_insStep hstep]

/-- C8: path resolution is invariant under inserting extra `/` characters
at segment boundaries or at the ends (any number of such insertions):
FindNode splits on `/` and skips all empty segments, so the two paths
resolve to the same outcome on every store. -/
theorem FindNode_separator_insertion (cs : ConfigServer) (p q : String)
    (h : Relation.ReflTransGen InsStep p.data q.data) :
    cs.FindNode p = cs.FindNode q := by
  have hch : canonCh p.data = canonCh q.data := canonCh_insChain h
  exact FindNode_canon cs p q (by rw [canonSegs_eq_map, canonSegs_eq_map, hch])

/-- C8 witness: the theorem applied to `a/b` and `a//b/`, which differ by
one separator duplicated at an interior boundary and one appended at the
end. -/
theorem FindNode_separator_insertion_witness :
    ConfigServer.FindNode csA "a/b" = ConfigServer.FindNode csA "a//b/" := by
  refine FindNode_separator_insertion csA "a/b" "a//b/" ?_
  have s1 : InsStep "a/b".data ['a', '/', '/', 'b'] :=
    ⟨['a', '/'], ['b'], rfl, rfl, Or.inr (Or.inr (Or.inl rfl))⟩
  have s2 : InsStep ['a', '/', '/', 'b'] "a//b/".data :=
    ⟨['a', '/', '/', 'b'], [], rfl, rfl, Or.inr (Or.inl rfl)⟩
  exact Relation.ReflTransGen.tail (Relation.ReflTransGen.single s1) s2

/-- C4 (amended): the four operations send two addresses to the same
status and the same resulting store whenever the rewriting of separators
preserves the canonical segment list, the `path.Split` leaf name, and
emptiness of the address.  Separators duplicated at interior boundaries or
prepended satisfy this; an appended trailing separator changes the leaf
name and breaks the equivalence for Create, Update and Delete (see the
counterexample), while Read needs only the canonical segments. -/
theorem Ops_separator_tolerance (cs : ConfigServer) (node : Node) (p q : String)
    (hseg : canonSegs p = canonSegs q)
    (hleaf : (goPathSplit p).2 = (goPathSplit q).2)
    (hempty : p = "" ↔ q = "") :
    Create cs p node = Create cs q node ∧ Read cs p = Read cs q ∧
      Update cs p node = Update cs q node ∧ Delete cs p = Delete cs q := by
  have hch : canonCh p.data = canonCh q.data := by
    have h1 := canonSegs_eq_map p
    have h2 := canonSegs_eq_map q
    rw [h1, h2] at hseg
    exact List.map_injective_iff.mpr (fun a b hab => congrArg String.data hab) hseg
  have hlf : (splitLast p.data).2 = (splitLast q.data).2 := congrArg String.data hleaf
  have hdir : canonCh (splitLast p.data).1 = canonCh (splitLast q.data).1 := by
    have hp := canonCh_decomp p.data
    have hq := canonCh_decomp q.data
    rw [hp, hq] at hch
    by_cases hz : (splitLast p.data).2 = []
    · have hzq : (splitLast q.data).2 = [] := hlf ▸ hz
      rw [hz, hzq, show canonCh ([] : List Char) = [] from rfl, List.append_nil,
        List.append_nil] at hch
      exact hch
    · have hzq : (splitLast q.data).2 ≠ [] := hlf ▸ hz
      rw [canonCh_no_slash _ (splitLast_snd_no_slash p.data), if_neg hz,
        canonCh_no_slash _ (splitLast_snd_no_slash q.data), if_neg hzq, hlf] at hch
      exact List.append_cancel_right hch
  have hdirS : canonSegs (goPathSplit p).1 = canonSegs (goPathSplit q).1 := by
    rw [canonSegs_eq_map, canonSegs_eq_map]
    rw [show ((goPathSplit p).1).data = (splitLast p.data).1 from rfl,
      show ((goPathSplit q).1).data = (splitLast q.data).1 from rfl, hdir]
  by_cases hpe : p = ""
  · have hqe : q = "" := hempty.mp hpe
    subst hpe
    subst hqe
    exact ⟨rfl, rfl, rfl, rfl⟩
  · have hqe : q ≠ "" := fun hq => hpe (hempty.mpr hq)
    have hFN := FindNode_canon cs _ _ hdirS
    have hMA : ∀ (root : Node) (f : Node → Option Node),
        mutateAt root (splitSlash (goPathSplit p).1) f
          = mutateAt root (splitSlash (goPathSplit q).1) f :=
      fun root f => mutateAt_canon root _ _ f hdirS
    refine ⟨?_, ?_, ?_, ?_⟩
    · unfold Create
      rw [if_neg hpe, if_neg hqe, hleaf, hFN]
      simp only [hMA]
    · unfold Read
      rw [FindNode_canon cs p q hseg]
    · unfold Update
      rw [if_neg hpe, if_neg hqe, hleaf, hFN]
      simp only [hMA]
    · unfold Delete
      rw [if_neg hpe, if_neg hqe, hleaf, hFN]
      simp only [hMA]

/-- C4 counterexample: `a/` arises from `a` by appending one trailing
separator, yet on the fixture store Delete of `a` removes the child and
returns OK while Delete of `a/` returns NotFound and leaves the store
unchanged — different status and different resulting tree. -/
theorem Ops_separator_tolerance_counterexample :
    Delete csA "a"
        = some (StatusOK, { Root := some (Node.mk Val.null (Children.mk Entries.nil)) }) ∧
      Delete csA "a/" = some (StatusNotFound, csA) ∧
      StatusOK ≠ StatusNotFound :=
  ⟨rfl, rfl, by decide⟩

/-- C4 witness: the amended theorem applied to `a` and `/a`, which differ
by one separator prepended at the leading boundary. -/
theorem Ops_separator_tolerance_witness :
    Create csA "a" (leafNode Val.null) = Create csA "/a" (leafNode Val.null) ∧
      Read csA "a" = Read csA "/a" ∧
      Update csA "a" (leafNode Val.null) = Update csA "/a" (leafNode Val.null) ∧
      Delete csA "a" = Delete csA "/a" :=
  Ops_separator_tolerance csA (leafNode Val.null) "a" "/a" (by decide) (by decide) (by decide)

end ConfigApi
